import Mathlib

/-!
Verification of the `enumeration` crate: a shallow embedding of the `Enum`
trait, the `Enumeration` range iterator, `EnumSet`, `EnumMap`, the serde
adapters and the derive generator's numeric choices, together with proofs
and refutations of the specification's claims.

Machine words are modelled as `Nat`, with the word width carried alongside
and reductions `% 2 ^ width` applied where the Rust code can overflow.
Fallible paths (including panics on out-of-range indexing) are modelled
with `Option`.
-/

/-- The operation `Wordlike::incr` from src/enumeration/src/wordlike.rs:
`self + 1` on a `w`-bit unsigned word (`impl_word!` expands it to `self + 1`
for every unsigned integer type). -/
def Wordlike.incr (w : Nat) (x : Nat) : Nat :=
  (x + 1) % 2 ^ w

/-- Modelled from the spec: the `Wordlike` "low N bits set" mask operation.
`EnumSet::inverse` calls `T::Rep::mask(T::SIZE as u32)`, but the `mask`
member's implementation is not among the provided sources (the `Wordlike`
snapshot in src/ predates it); the spec describes it as the word with the
low `n` bits set, i.e. `2 ^ n - 1`. -/
def Wordlike.mask (n : Nat) : Nat :=
  2 ^ n - 1

/-- The members of the `Enum` trait (src/enumeration/src/enumerate/enum_trait.rs)
for one conforming type `α`: `SIZE`, `MIN`, `MAX`, `succ`, `pred`, `bit`,
`index`. The representation word `Rep` is modelled as `Nat` together with its
width in bits, `repWidth`. -/
structure EnumSig (α : Type) where
  size : Nat
  min : α
  max : α
  succ : α → Option α
  pred : α → Option α
  bit : α → Nat
  repWidth : Nat
  index : α → Nat

/-- The laws the `Enum` trait documentation and the spec impose on a
conforming implementation: `index` is injective, bounded by `SIZE`, `succ`
and `pred` step it by exactly one, and they return `none` exactly at `MAX`
resp. `MIN`, whose index is the largest one. -/
structure EnumLaws {α : Type} (E : EnumSig α) : Prop where
  index_lt : ∀ x, E.index x < E.size
  index_inj : ∀ x y, E.index x = E.index y → x = y
  succ_eq_none : ∀ x, E.succ x = none ↔ x = E.max
  pred_eq_none : ∀ x, E.pred x = none ↔ x = E.min
  index_succ : ∀ x y, E.succ x = some y → E.index y = E.index x + 1
  index_pred : ∀ x y, E.pred x = some y → E.index x = E.index y + 1
  index_max : E.index E.max + 1 = E.size

/-- Surjectivity of `index` onto the range below `SIZE`; together with
`EnumLaws.index_inj` this is the bijection the spec demands. -/
def IndexSurj {α : Type} (E : EnumSig α) : Prop :=
  ∀ i, i < E.size → ∃ x, E.index x = i

/-- The built-in `impl Enum for bool` (enum_trait.rs lines 82-124):
`SIZE = 2`, `MIN = false`, `MAX = true`, `bit = 1 << (self as u8)`,
`index = self as usize`. -/
def boolEnum : EnumSig Bool where
  size := 2
  min := false
  max := true
  succ := fun b => if b then none else some true
  pred := fun b => if b then some false else none
  bit := fun b => 1 <<< (if b then 1 else 0)
  repWidth := 8
  index := fun b => if b then 1 else 0

/-- The built-in `impl Enum for Ordering` (enum_trait.rs lines 126-173):
`SIZE = 3`, `MIN = Less`, `MAX = Greater`, `bit = 1 << (self as i8 + 1)`,
`index = (self as i8 + 1) as usize` (the discriminants of `Less`, `Equal`,
`Greater` as `i8` are `-1`, `0`, `1`). -/
def orderingEnum : EnumSig Ordering where
  size := 3
  min := Ordering.lt
  max := Ordering.gt
  succ := fun x =>
    match x with
    | Ordering.lt => some Ordering.eq
    | Ordering.eq => some Ordering.gt
    | Ordering.gt => none
  pred := fun x =>
    match x with
    | Ordering.lt => none
    | Ordering.eq => some Ordering.lt
    | Ordering.gt => some Ordering.eq
  bit := fun x =>
    match x with
    | Ordering.lt => 1 <<< 0
    | Ordering.eq => 1 <<< 1
    | Ordering.gt => 1 <<< 2
  repWidth := 8
  index := fun x =>
    match x with
    | Ordering.lt => 0
    | Ordering.eq => 1
    | Ordering.gt => 2

/-- The generic `impl Enum for Option<T>` (src/enumeration/src/optionable.rs):
`SIZE = T::SIZE + 1`, `MIN = None`, `MAX = Some(T::MAX)`; `bit(None)` is
`T::MIN.bit()` widened, and `bit(Some(e))` is `e.bit()` widened and then
passed through `Wordlike::incr`. `w` is the width of `T::RepForOptional`
(the `From<T::Rep>` conversion is the numeric identity). -/
def optionEnum {α : Type} (E : EnumSig α) (w : Nat) : EnumSig (Option α) where
  size := E.size + 1
  min := none
  max := some E.max
  succ := fun x =>
    match x with
    | none => some (some E.min)
    | some e => (E.succ e).map some
  pred := fun x => x.map E.pred
  bit := fun x =>
    match x with
    | none => E.bit E.min
    | some e => Wordlike.incr w (E.bit e)
  repWidth := w
  index := fun x =>
    match x with
    | none => 0
    | some e => E.index e + 1

/-- `impl OptionableEnum for bool { type RepForOptional = u8; }`
(optionable.rs lines 54-56): the optional wrapper over `bool`, with an
8-bit representation word. -/
def optionBoolEnum : EnumSig (Option Bool) :=
  optionEnum boolEnum 8

/-- The implementation emitted by `derive_enum` for a one-variant enum
(enumeration_derive lib.rs lines 118-159), carrier modelled as `Unit`:
`succ` and `pred` are constantly `None` and `bit` is constantly `0`. -/
def singleDerivedEnum : EnumSig Unit where
  size := 1
  min := ()
  max := ()
  succ := fun _ => none
  pred := fun _ => none
  bit := fun _ => 0
  repWidth := 8
  index := fun _ => 0

/-- The implementation emitted by `derive_enum` for a two-variant enum with
no `repr` attribute (lib.rs lines 160-208), carrier modelled as `Bool` with
`false` the first variant: `bit(self) = self as Rep`, i.e. the discriminant
itself (`0` for the first variant, `1` for the second). -/
def doubleDerivedEnum : EnumSig Bool where
  size := 2
  min := false
  max := true
  succ := fun b => if b then none else some true
  pred := fun b => if b then some false else none
  bit := fun b => if b then 1 else 0
  repWidth := 8
  index := fun b => if b then 1 else 0

/-- `rep_for_size` from enumeration_derive lib.rs lines 214-228, returning
the width in bits of the chosen unsigned representation type (`u8` ... `u128`),
or `none` when no standard width fits. -/
def rep_for_size (size : Nat) : Option Nat :=
  if size ≤ 8 then some 8
  else if size ≤ 16 then some 16
  else if size ≤ 32 then some 32
  else if size ≤ 64 then some 64
  else if size ≤ 128 then some 128
  else none

/-- The representation width `derive_enum` selects for an enum with `n`
variants: lib.rs line 36 calls `rep_for_size(size + 1)` (reserving one extra
bit), panicking with "too many variants" on `none`. -/
def derive_rep (n : Nat) : Option Nat :=
  rep_for_size (n + 1)

/-- The `Enumeration` iterator state (src/enumeration/src/enumerate/iter.rs):
two boundary values plus a finished flag. The source's `end` field is called
`stop` here because `end` is reserved in Lean. -/
structure Enumeration (α : Type) where
  finished : Bool
  start : α
  stop : α
deriving DecidableEq

/-- One of the bound kinds of a requested range, as in `std::ops::Bound`. -/
inductive EnumBound (α : Type) where
  | unbounded : EnumBound α
  | included : α → EnumBound α
  | excluded : α → EnumBound α

/-- The `invalid_enum` helper inside `Enum::enumerate` (enum_trait.rs lines
48-54): the canonical empty instance with `finished = true` and both bounds
at `MIN`. -/
def Enum.invalid_enum {α : Type} (E : EnumSig α) : Enumeration α :=
  { finished := true, start := E.min, stop := E.min }

/-- Resolution of the requested start bound (enum_trait.rs lines 55-62):
unbounded becomes `MIN`, an included bound is used verbatim, an excluded
bound becomes its successor; `none` is the early return into `invalid_enum`. -/
def Enum.resolveStart {α : Type} (E : EnumSig α) : EnumBound α → Option α
  | EnumBound.unbounded => some E.min
  | EnumBound.included t => some t
  | EnumBound.excluded t => E.succ t

/-- Resolution of the requested end bound (enum_trait.rs lines 63-70),
symmetric to `Enum.resolveStart` with `MAX` and predecessors. -/
def Enum.resolveEnd {α : Type} (E : EnumSig α) : EnumBound α → Option α
  | EnumBound.unbounded => some E.max
  | EnumBound.included t => some t
  | EnumBound.excluded t => E.pred t

/-- `Enum::enumerate` (enum_trait.rs lines 47-79): resolve both bounds,
falling back to `invalid_enum` when a resolution fails or when the resolved
start's index exceeds the resolved end's index. -/
def Enum.enumerate {α : Type} (E : EnumSig α) (sb eb : EnumBound α) :
    Enumeration α :=
  match Enum.resolveStart E sb with
  | none => Enum.invalid_enum E
  | some start =>
    match Enum.resolveEnd E eb with
    | none => Enum.invalid_enum E
    | some stop =>
      if E.index start > E.index stop then Enum.invalid_enum E
      else { finished := false, start := start, stop := stop }

/-- `Iterator::next` for `Enumeration` (iter.rs lines 17-31), returning the
yielded item and the successor state. The outer `none` models the `expect`
panic on `succ` returning `None` below `MAX`, which is unreachable for a
law-abiding `Enum` implementation. -/
def Enumeration.next {α : Type} [DecidableEq α] (E : EnumSig α)
    (e : Enumeration α) : Option (Option α × Enumeration α) :=
  if e.finished then some (none, e)
  else if e.start = e.stop then some (some e.start, { e with finished := true })
  else
    match E.succ e.start with
    | some s => some (some e.start, { e with start := s })
    | none => none

/-- `Iterator::count` for `Enumeration` (iter.rs lines 55-62):
`0` when finished, else `end.index() + 1 - start.index()`. -/
def Enumeration.count {α : Type} (E : EnumSig α) (e : Enumeration α) : Nat :=
  if e.finished then 0 else E.index e.stop + 1 - E.index e.start

/-- `Iterator::size_hint` for `Enumeration` (iter.rs lines 64-68): the exact
count as both bounds. -/
def Enumeration.size_hint {α : Type} (E : EnumSig α) (e : Enumeration α) :
    Nat × Option Nat :=
  (Enumeration.count E e, some (Enumeration.count E e))

/-- Exhaustively stepping the iterator to completion with `Enumeration.next`,
tallying the yielded elements. `fuel` bounds the number of steps; the result
is `none` when the fuel runs out before the iterator finishes or when a step
hits the modelled panic. -/
def Enumeration.drainCount {α : Type} [DecidableEq α] (E : EnumSig α) :
    Nat → Enumeration α → Option Nat
  | 0, e => if e.finished then some 0 else none
  | fuel + 1, e =>
    match Enumeration.next E e with
    | none => none
    | some (none, _) => some 0
    | some (some _, e2) => (Enumeration.drainCount E fuel e2).map (· + 1)

/-- `EnumSet` (src/enumeration/src/set/enum_set.rs): a single representation
word, modelled as `Nat`; the key type's signature supplies `bit`, `SIZE` and
the word width when operating on it. -/
structure EnumSet where
  raw : Nat
deriving DecidableEq

/-- `EnumSet::new` (enum_set.rs lines 32-35): the empty set, `Rep::ZERO`. -/
def EnumSet.new : EnumSet :=
  { raw := 0 }

/-- `EnumSet::contains` (enum_set.rs lines 277-280):
`self.raw & x.bit() != Wordlike::ZERO`. -/
def EnumSet.contains {α : Type} (E : EnumSig α) (s : EnumSet) (x : α) : Bool :=
  (s.raw &&& E.bit x) != 0

/-- `EnumSet::insert` (enum_set.rs lines 375-378): `self.raw |= x.bit()`. -/
def EnumSet.insert {α : Type} (E : EnumSig α) (s : EnumSet) (x : α) : EnumSet :=
  { raw := s.raw ||| E.bit x }

/-- `EnumSet::inverse` (enum_set.rs lines 161-166):
`!self.raw & T::Rep::mask(T::SIZE as u32)`. Rust's `!` on a `repWidth`-bit
word is modelled as XOR with the all-ones word of that width. -/
def EnumSet.inverse {α : Type} (E : EnumSig α) (s : EnumSet) : EnumSet :=
  { raw := (s.raw ^^^ Wordlike.mask E.repWidth) &&& Wordlike.mask E.size }

/-- `EnumMap` (src/enumeration/src/map/enum_map.rs lines 120-125): a vector
of optional value slots plus the maintained occupancy count `size`. -/
structure EnumMap (V : Type) where
  inner : List (Option V)
  size : Nat
deriving DecidableEq

/-- `EnumMap::new` (enum_map.rs lines 147-154): no backing storage, count 0. -/
def EnumMap.new (V : Type) : EnumMap V :=
  { inner := [], size := 0 }

/-- `EnumMap::allocate` (enum_map.rs lines 522-527): on an empty backing
vector, resize it to `SIZE` empty slots. -/
def EnumMap.allocate {κ V : Type} (E : EnumSig κ) (m : EnumMap V) : EnumMap V :=
  if m.inner.isEmpty then { m with inner := List.replicate E.size none } else m

/-- `EnumMap::get` (enum_map.rs lines 583-586):
`self.inner.get(k.index()).and_then(Option::as_ref)`. -/
def EnumMap.get {κ V : Type} (E : EnumSig κ) (m : EnumMap V) (k : κ) :
    Option V :=
  (m.inner.get? (E.index k)).bind id

/-- `EnumMap::get_mut` (enum_map.rs lines 628-631): the same slot lookup as
`EnumMap::get`; in this pure model it returns the looked-up slot content. -/
def EnumMap.get_mut {κ V : Type} (E : EnumSig κ) (m : EnumMap V) (k : κ) :
    Option V :=
  (m.inner.get? (E.index k)).bind id

/-- `EnumMap::insert` (enum_map.rs lines 654-662): allocate, replace slot
`k.index()` with the new value, increment `size` only when the slot was
empty, and return the prior value. The outer `none` models the panic of
`self.inner[k.index()]` on an out-of-range index, unreachable for a
law-abiding key type. -/
def EnumMap.insert {κ V : Type} (E : EnumSig κ) (m : EnumMap V) (k : κ)
    (v : V) : Option (Option V × EnumMap V) :=
  let m2 := EnumMap.allocate E m
  match m2.inner.get? (E.index k) with
  | none => none
  | some slot =>
    some (slot,
      { inner := m2.inner.set (E.index k) (some v),
        size := if slot.isNone then m2.size + 1 else m2.size })

/-- `EnumMap::remove` (enum_map.rs lines 678-685):
`self.inner.get_mut(k.index())?.take()`, decrementing `size` only on a
genuine removal; an out-of-range or never-allocated slot returns `None`
early, leaving the map unchanged. -/
def EnumMap.remove {κ V : Type} (E : EnumSig κ) (m : EnumMap V) (k : κ) :
    Option V × EnumMap V :=
  match m.inner.get? (E.index k) with
  | none => (none, m)
  | some slot =>
    (slot,
      { inner := m.inner.set (E.index k) none,
        size := if slot.isSome then m.size - 1 else m.size })

/-- `FromIterator<(K, V)> for EnumMap` (enum_map.rs lines 744-759): storage
of exactly `SIZE` slots up front, then for every pair the count is
incremented and the slot overwritten. -/
def EnumMap.from_iter {κ V : Type} (E : EnumSig κ) (pairs : List (κ × V)) :
    EnumMap V :=
  pairs.foldl
    (fun m kv =>
      { inner := m.inner.set (E.index kv.1) (some kv.2), size := m.size + 1 })
    { inner := List.replicate E.size none, size := 0 }

/-- The number of occupied slots of a map's backing vector: the quantity the
spec's occupancy-count invariant compares `size` against. -/
def EnumMap.occupiedCount {V : Type} (m : EnumMap V) : Nat :=
  (m.inner.filter Option.isSome).length

/-- The sequence emitted when serializing an `EnumSet`
(external_trait_impls/serde.rs lines 9-17): the set's iterator output, i.e.
the full ascending enumeration of the key type filtered to contained values
(set/iter.rs). `univ` stands for the value list `T::enumerate(..)` yields. -/
def EnumSet.encode {α : Type} (E : EnumSig α) (univ : List α) (s : EnumSet) :
    List α :=
  univ.filter (fun x => EnumSet.contains E s x)

/-- Deserialization of an `EnumSet` (serde.rs lines 19-58): each decoded
value is inserted in turn into a fresh empty set. -/
def EnumSet.decode {α : Type} (E : EnumSig α) (l : List α) : EnumSet :=
  l.foldl (fun s x => EnumSet.insert E s x) EnumSet.new

/-- The key-value sequence emitted when serializing an `EnumMap`
(serde.rs lines 60-69): the map's iterator output, i.e. the ascending
enumeration zipped with the slots and filtered to occupied ones
(map/iter.rs). -/
def EnumMap.encode {κ V : Type} (univ : List κ)
    (m : EnumMap V) : List (κ × V) :=
  (univ.zip m.inner).filterMap (fun kv => kv.2.map (fun v => (kv.1, v)))

/-- Deserialization of an `EnumMap` (serde.rs lines 71-106): each decoded
pair is inserted in turn into a fresh empty map; `none` propagates the
modelled out-of-range panic of `EnumMap.insert`. -/
def EnumMap.decode {κ V : Type} (E : EnumSig κ) (pairs : List (κ × V)) :
    Option (EnumMap V) :=
  pairs.foldlM
    (fun m kv => (EnumMap.insert E m kv.1 kv.2).map Prod.snd)
    (EnumMap.new V)

instance : Fintype Ordering where
  elems := ⟨[Ordering.lt, Ordering.eq, Ordering.gt], by decide⟩
  complete := by intro x; cases x <;> decide

/-- The built-in `Ordering` implementation satisfies the `Enum` laws. -/
theorem orderingEnumLaws : EnumLaws orderingEnum := by
  constructor <;> decide

/-- The built-in `Ordering` implementation's `index` is surjective below
`SIZE`. -/
theorem orderingEnumSurj : IndexSurj orderingEnum := by
  show ∀ i, i < 3 → ∃ x, orderingEnum.index x = i
  decide

/-- C1: the claim that `bit` always yields a single-bit mask and that masks
of distinct values never overlap fails on the code. With
`Wordlike::incr = self + 1`, the optional wrapper gives
`Option::<bool>::bit`: `None ↦ 1`, `Some(false) ↦ 2`, `Some(true) ↦ 3`;
the value `3` has two bits set and overlaps the mask of `Some(false)`.
The derive generator's one-variant branch emits the constant mask `0`
(no bit set), and its two-variant branch emits the discriminant itself,
which is `0` for the first variant. -/
theorem bit_mask_failures :
    optionBoolEnum.bit none = 1 ∧
    optionBoolEnum.bit (some false) = 2 ∧
    optionBoolEnum.bit (some true) = 3 ∧
    Nat.testBit (optionBoolEnum.bit (some true)) 0 = true ∧
    Nat.testBit (optionBoolEnum.bit (some true)) 1 = true ∧
    optionBoolEnum.bit (some true) &&& optionBoolEnum.bit (some false) ≠ 0 ∧
    singleDerivedEnum.bit () = 0 ∧
    doubleDerivedEnum.bit false = 0 := by
  decide

/-- C2: the claim that bulk construction folds insertions without
double-counting fails on the code. `FromIterator for EnumMap` increments the
maintained count once per pair regardless of whether the slot was already
occupied, so `from_iter([(Less, 1), (Less, 2)])` reports `len() = 2` while
only one slot is occupied, breaking the occupancy-count invariant. -/
theorem from_iter_double_count :
    (EnumMap.from_iter orderingEnum [(Ordering.lt, 1), (Ordering.lt, 2)]).size
        = 2 ∧
    EnumMap.occupiedCount
        (EnumMap.from_iter orderingEnum [(Ordering.lt, 1), (Ordering.lt, 2)])
        = 1 ∧
    EnumMap.get orderingEnum
        (EnumMap.from_iter orderingEnum [(Ordering.lt, 1), (Ordering.lt, 2)])
        Ordering.lt = some 2 := by
  decide

/-- C5 counterexample: the claim picks `u8` for every variant count up to 8,
but `derive_enum` calls `rep_for_size(size + 1)`, so an 8-variant enum gets
a 16-bit representation, not an 8-bit one. -/
theorem derive_rep_counterexample :
    derive_rep 8 = some 16 ∧ derive_rep 8 ≠ some 8 := by
  decide

/-- C5 amended: for a non-empty variant list the derive generator selects
the smallest standard unsigned width of at least `N + 1` bits: `u8` for
`N ≤ 7`, `u16` for `N ≤ 15`, `u32` for `N ≤ 31`, `u64` for `N ≤ 63`,
`u128` for `N ≤ 127`, and rejection ("too many variants") beyond that. -/
theorem derive_rep_amended (n : Nat) (h : 1 ≤ n) :
    derive_rep n =
      if n ≤ 7 then some 8
      else if n ≤ 15 then some 16
      else if n ≤ 31 then some 32
      else if n ≤ 63 then some 64
      else if n ≤ 127 then some 128
      else none := by
  simp only [derive_rep, rep_for_size]
  split_ifs <;> first | rfl | omega

/-- C5 amended, witness: an 8-variant enum is given the 16-bit width. -/
theorem derive_rep_amended_witness :
    derive_rep 8 =
      if (8 : Nat) ≤ 7 then some 8
      else if (8 : Nat) ≤ 15 then some 16
      else if (8 : Nat) ≤ 31 then some 32
      else if (8 : Nat) ≤ 63 then some 64
      else if (8 : Nat) ≤ 127 then some 128
      else none :=
  derive_rep_amended 8 (by decide)

/-- C6: lookups report absence exactly when the addressed slot is empty,
with a never-allocated backing vector treated as universally empty: `get`
and `get_mut` on a fresh map return `None` for every key and never fail,
and in general `get` returns exactly the slot's content, with out-of-range
slots (the unallocated case) read as empty. -/
theorem get_empty_slot_none {κ V : Type} (E : EnumSig κ) :
    (∀ k, EnumMap.get E (EnumMap.new V) k = none) ∧
    (∀ k, EnumMap.get_mut E (EnumMap.new V) k = none) ∧
    (∀ (m : EnumMap V) k,
      EnumMap.get E m k = m.inner.getD (E.index k) none) ∧
    (∀ (m : EnumMap V) k,
      (EnumMap.get E m k = none ↔ m.inner.getD (E.index k) none = none)) := by
  have hgen : ∀ (m : EnumMap V) (k : κ),
      EnumMap.get E m k = m.inner.getD (E.index k) none := by
    intro m k
    show (m.inner.get? (E.index k)).bind id = (m.inner.get? (E.index k)).getD none
    rcases m.inner.get? (E.index k) with _ | o
    · rfl
    · rcases o with _ | v <;> rfl
  refine ⟨fun k => rfl, fun k => rfl, hgen, fun m k => by rw [hgen]⟩

/-- C10: `remove` on a map whose backing storage has never been allocated:
`self.inner.get_mut(k.index())` is `None` for every key on an empty vector,
so the `?` operator returns `None` without touching the map, and the count
stays 0. -/
theorem remove_unallocated_noop {κ V : Type} (E : EnumSig κ) (k : κ) :
    EnumMap.remove E (EnumMap.new V) k = (none, EnumMap.new V) ∧
    (EnumMap.remove E (EnumMap.new V) k).2.size = 0 :=
  ⟨rfl, rfl⟩

/-- Stepping a finished enumeration yields nothing at any fuel. -/
theorem drainCount_finished {α : Type} [DecidableEq α] (E : EnumSig α) :
    ∀ (fuel : Nat) (e : Enumeration α), e.finished = true →
      Enumeration.drainCount E fuel e = some 0 := by
  intro fuel e h
  cases fuel with
  | zero => simp [Enumeration.drainCount, h]
  | succ f => simp [Enumeration.drainCount, Enumeration.next, h]

/-- For a law-abiding key type, exhaustively stepping an unfinished,
well-ordered enumeration with enough fuel tallies exactly
`Enumeration.count` elements. -/
theorem drainCount_eq_count {α : Type} [DecidableEq α] {E : EnumSig α}
    (L : EnumLaws E) :
    ∀ (fuel : Nat) (e : Enumeration α), e.finished = false →
      E.index e.start ≤ E.index e.stop →
      E.index e.stop - E.index e.start < fuel →
      Enumeration.drainCount E fuel e = some (Enumeration.count E e) := by
  intro fuel
  induction fuel with
  | zero => intro e _ _ hlt; omega
  | succ f ih =>
    intro e hf hle hlt
    by_cases heq : e.start = e.stop
    · have hcount : Enumeration.count E e = 1 := by
        simp [Enumeration.count, hf, heq]
      have h1 : Enumeration.next E e
          = some (some e.start, { e with finished := true }) := by
        simp [Enumeration.next, hf, heq]
      have h2 := drainCount_finished E f { e with finished := true } rfl
      simp [Enumeration.drainCount, h1, h2, hcount]
    · have hneq : E.index e.start ≠ E.index e.stop :=
        fun hI => heq (L.index_inj _ _ hI)
      have hlt2 : E.index e.start < E.index e.stop := lt_of_le_of_ne hle hneq
      have hmax : e.start ≠ E.max := by
        intro hm
        have h3 := L.index_lt e.stop
        have h4 := L.index_max
        rw [hm] at hlt2
        omega
      obtain ⟨s, hs⟩ : ∃ s, E.succ e.start = some s := by
        cases hsucc : E.succ e.start with
        | none => exact absurd ((L.succ_eq_none _).mp hsucc) hmax
        | some s => exact ⟨s, rfl⟩
      have hidx : E.index s = E.index e.start + 1 := L.index_succ _ _ hs
      have h1 : Enumeration.next E e
          = some (some e.start, { e with start := s }) := by
        simp [Enumeration.next, hf, heq, hs]
      have ihs : Enumeration.drainCount E f { e with start := s }
          = some (Enumeration.count E { e with start := s }) := by
        apply ih
        · exact hf
        · show E.index s ≤ E.index e.stop
          omega
        · show E.index e.stop - E.index s < f
          omega
      have hc : Enumeration.count E { e with start := s } + 1
          = Enumeration.count E e := by
        simp only [Enumeration.count, hf]
        simp only [if_neg (by simp : ¬ (false = true))]
        omega
      simp [Enumeration.drainCount, h1, ihs, hc]

/-- C3: while not finished (and well-ordered, as every constructed range
is), the O(1) remaining count is `end.index() - start.index() + 1` and
coincides with the tally of exhaustively stepping the iterator to
completion; a finished enumeration reports 0; `size_hint` returns the exact
count twice; and `enumerate` only ever produces unfinished states whose
start index is at most the end index. Hypothesis: the key type satisfies
the `Enum` laws. -/
theorem count_matches_stepping {α : Type} [DecidableEq α] (E : EnumSig α)
    (L : EnumLaws E) (e : Enumeration α) :
    (e.finished = true → Enumeration.count E e = 0) ∧
    (e.finished = false → E.index e.start ≤ E.index e.stop →
      Enumeration.count E e = E.index e.stop - E.index e.start + 1 ∧
      (∀ fuel, E.index e.stop - E.index e.start < fuel →
        Enumeration.drainCount E fuel e = some (Enumeration.count E e))) ∧
    Enumeration.size_hint E e
      = (Enumeration.count E e, some (Enumeration.count E e)) ∧
    (∀ sb eb, (Enum.enumerate E sb eb).finished = false →
      E.index (Enum.enumerate E sb eb).start
        ≤ E.index (Enum.enumerate E sb eb).stop) := by
  refine ⟨?_, ?_, rfl, ?_⟩
  · intro h
    simp [Enumeration.count, h]
  · intro hf hle
    constructor
    · simp only [Enumeration.count, hf]
      simp only [if_neg (by simp : ¬ (false = true))]
      omega
    · intro fuel hfuel
      exact drainCount_eq_count L fuel e hf hle hfuel
  · intro sb eb
    cases hrs : Enum.resolveStart E sb with
    | none =>
      have hinv : Enum.enumerate E sb eb = Enum.invalid_enum E := by
        unfold Enum.enumerate
        rw [hrs]
      rw [hinv]
      intro h
      simp [Enum.invalid_enum] at h
    | some s =>
      cases hre : Enum.resolveEnd E eb with
      | none =>
        have hinv : Enum.enumerate E sb eb = Enum.invalid_enum E := by
          unfold Enum.enumerate
          rw [hrs, hre]
        rw [hinv]
        intro h
        simp [Enum.invalid_enum] at h
      | some t =>
        have hred : Enum.enumerate E sb eb =
            if E.index s > E.index t then Enum.invalid_enum E
            else { finished := false, start := s, stop := t } := by
          unfold Enum.enumerate
          rw [hrs, hre]
        rw [hred]
        by_cases hgt : E.index s > E.index t
        · rw [if_pos hgt]
          intro h
          simp [Enum.invalid_enum] at h
        · rw [if_neg hgt]
          intro _
          show E.index s ≤ E.index t
          omega

/-- C3 witness: the full `Ordering` range `Less..=Greater` reports count 3
and stepping it to completion yields 3 elements. -/
theorem count_matches_stepping_witness :
    Enumeration.count orderingEnum
      { finished := false, start := Ordering.lt, stop := Ordering.gt } = 3 ∧
    Enumeration.drainCount orderingEnum 5
      { finished := false, start := Ordering.lt, stop := Ordering.gt }
      = some 3 := by
  have h := count_matches_stepping orderingEnum orderingEnumLaws
    { finished := false, start := Ordering.lt, stop := Ordering.gt }
  obtain ⟨-, h2, -, -⟩ := h
  obtain ⟨hc, hd⟩ := h2 rfl (by decide)
  have hc3 : Enumeration.count orderingEnum
      { finished := false, start := Ordering.lt, stop := Ordering.gt } = 3 := by
    rw [hc]
    decide
  refine ⟨hc3, ?_⟩
  have h5 := hd 5 (by decide)
  rw [h5, hc3]

/-- C4: whenever a requested range has invalid bounds — an excluded start
bound whose value has no successor, an excluded end bound whose value has no
predecessor, or a resolved start whose index exceeds the resolved end's
index — `enumerate` returns the canonical empty instance (`finished = true`,
`start = end = MIN`); it yields no elements at any fuel, reports count 0,
and behaves under `next`, `count` and stepping exactly like every other
finished (drained) enumeration; no error is signalled. -/
theorem enumerate_invalid_bounds {α : Type} [DecidableEq α] (E : EnumSig α)
    (sb eb : EnumBound α)
    (h : Enum.resolveStart E sb = none ∨
         Enum.resolveEnd E eb = none ∨
         (∃ s t, Enum.resolveStart E sb = some s ∧
            Enum.resolveEnd E eb = some t ∧ E.index t < E.index s)) :
    Enum.enumerate E sb eb = Enum.invalid_enum E ∧
    (Enum.enumerate E sb eb).finished = true ∧
    (Enum.enumerate E sb eb).start = E.min ∧
    (Enum.enumerate E sb eb).stop = E.min ∧
    Enumeration.count E (Enum.enumerate E sb eb) = 0 ∧
    (∀ fuel, Enumeration.drainCount E fuel (Enum.enumerate E sb eb)
      = some 0) ∧
    (∀ e2 : Enumeration α, e2.finished = true →
      Enumeration.next E e2 = some (none, e2) ∧
      Enumeration.count E e2 = 0 ∧
      ∀ fuel, Enumeration.drainCount E fuel e2 = some 0) := by
  have hmain : Enum.enumerate E sb eb = Enum.invalid_enum E := by
    unfold Enum.enumerate
    rcases h with h1 | h2 | ⟨s, t, hs, ht, hlt⟩
    · rw [h1]
    · cases hrs : Enum.resolveStart E sb with
      | none => rfl
      | some s => rw [h2]
    · rw [hs, ht]
      show (if E.index s > E.index t then Enum.invalid_enum E
            else { finished := false, start := s, stop := t })
          = Enum.invalid_enum E
      rw [if_pos hlt]
  refine ⟨hmain, ?_, ?_, ?_, ?_, ?_, ?_⟩
  · rw [hmain]; rfl
  · rw [hmain]; rfl
  · rw [hmain]; rfl
  · rw [hmain]; rfl
  · intro fuel
    rw [hmain]
    exact drainCount_finished E fuel _ rfl
  · intro e2 h2
    refine ⟨?_, ?_, fun fuel => drainCount_finished E fuel e2 h2⟩
    · simp [Enumeration.next, h2]
    · simp [Enumeration.count, h2]

/-- C4 witness: for `Ordering`, excluding `Greater` from below (a start
bound with no successor) produces the canonical empty instance with
count 0. -/
theorem enumerate_invalid_bounds_witness :
    Enum.enumerate orderingEnum (EnumBound.excluded Ordering.gt)
      EnumBound.unbounded = Enum.invalid_enum orderingEnum ∧
    Enumeration.count orderingEnum
      (Enum.enumerate orderingEnum (EnumBound.excluded Ordering.gt)
        EnumBound.unbounded) = 0 := by
  have h := enumerate_invalid_bounds orderingEnum
    (EnumBound.excluded Ordering.gt) EnumBound.unbounded (Or.inl rfl)
  exact ⟨h.1, h.2.2.2.2.1⟩

/-- A successful positional lookup stays below the length. -/
theorem get?_some_lt_length {α : Type} {l : List α} {i : Nat} {a : α}
    (h : l.get? i = some a) : i < l.length := by
  by_contra hn
  rw [List.get?_eq_none.mpr (by omega)] at h
  exact Option.noConfusion h

/-- An occupied slot makes the occupied-slot count positive. -/
theorem occupiedCount_pos {V : Type} (m : EnumMap V) (i : Nat) (w : V)
    (h : m.inner.get? i = some (some w)) : 0 < EnumMap.occupiedCount m := by
  have hmem : (some w) ∈ m.inner := List.get?_mem h
  have hmem2 : (some w) ∈ m.inner.filter Option.isSome :=
    List.mem_filter.mpr ⟨hmem, rfl⟩
  exact List.length_pos_of_mem hmem2

/-- A map with backing storage of the full `SIZE` is not empty (for a
law-abiding key type, `SIZE` is positive). -/
theorem allocate_eq_of_full {κ V : Type} (E : EnumSig κ) (L : EnumLaws E)
    (m : EnumMap V) (h : m.inner.length = E.size) :
    EnumMap.allocate E m = m := by
  have hpos : 0 < E.size := Nat.lt_of_le_of_lt (Nat.zero_le _) (L.index_lt E.min)
  have hne : m.inner ≠ [] := by
    intro hnil
    rw [hnil] at h
    simp at h
    omega
  unfold EnumMap.allocate
  rw [List.isEmpty_eq_false.mpr hne]
  rfl

/-- C7: for a well-formed map (storage unallocated or of full `SIZE`, count
equal to the occupied-slot count) and a law-abiding key type: inserting at
an absent key succeeds, grows the count by exactly 1 and makes the key map
to the new value; at a present key, `insert` returns the previous value and
leaves the count unchanged while storing the new value, and `remove`
returns the stored value, shrinks the count by exactly 1 and makes the key
absent. -/
theorem insert_remove_len_get {κ V : Type} (E : EnumSig κ) (L : EnumLaws E)
    (m : EnumMap V) (k : κ) (v : V)
    (hlen : m.inner = [] ∨ m.inner.length = E.size)
    (hsize : m.size = EnumMap.occupiedCount m) :
    (EnumMap.get E m k = none →
      ∃ m2, EnumMap.insert E m k v = some (none, m2) ∧
        m2.size = m.size + 1 ∧ EnumMap.get E m2 k = some v) ∧
    (∀ w, EnumMap.get E m k = some w →
      (∃ m2, EnumMap.insert E m k v = some (some w, m2) ∧
        m2.size = m.size ∧ EnumMap.get E m2 k = some v) ∧
      (EnumMap.remove E m k).1 = some w ∧
      (EnumMap.remove E m k).2.size + 1 = m.size ∧
      EnumMap.get E (EnumMap.remove E m k).2 k = none) := by
  have hi : E.index k < E.size := L.index_lt k
  constructor
  · intro habs
    rcases hlen with hnil | hfull
    · -- never-allocated storage: allocation happens inside insert
      have halloc : EnumMap.allocate E m
          = { inner := List.replicate E.size none, size := m.size } := by
        unfold EnumMap.allocate
        rw [hnil]
        rfl
      have hrep : (List.replicate E.size (none : Option V)).get? (E.index k)
          = some none := by
        rw [List.get?_eq_get (by simpa using hi)]
        simp
      refine ⟨{ inner := (List.replicate E.size none).set (E.index k) (some v),
                size := m.size + 1 }, ?_, rfl, ?_⟩
      · unfold EnumMap.insert
        rw [halloc]
        simp only [hrep]
        rfl
      · show (((List.replicate E.size (none : Option V)).set (E.index k)
            (some v)).get? (E.index k)).bind id = some v
        rw [List.get?_set_eq_of_lt _ (by simpa using hi)]
        rfl
    · -- allocated storage: the addressed slot exists and is empty
      have halloc := allocate_eq_of_full E L m hfull
      obtain ⟨slot, hslot⟩ : ∃ slot, m.inner.get? (E.index k) = some slot :=
        ⟨m.inner.get ⟨E.index k, by omega⟩, List.get?_eq_get (by omega)⟩
      have hslotnone : slot = none := by
        have := habs
        unfold EnumMap.get at this
        rw [hslot] at this
        cases slot with
        | none => rfl
        | some w => exact Option.noConfusion this
      subst hslotnone
      refine ⟨{ inner := m.inner.set (E.index k) (some v),
                size := m.size + 1 }, ?_, rfl, ?_⟩
      · unfold EnumMap.insert
        rw [halloc]
        simp only [hslot]
        rfl
      · show ((m.inner.set (E.index k) (some v)).get? (E.index k)).bind id
            = some v
        rw [List.get?_set_eq_of_lt _ (by omega)]
        rfl
  · intro w hpres
    have hslot : m.inner.get? (E.index k) = some (some w) := by
      unfold EnumMap.get at hpres
      cases hs : m.inner.get? (E.index k) with
      | none => rw [hs] at hpres; exact Option.noConfusion hpres
      | some slot =>
        rw [hs] at hpres
        cases slot with
        | none => exact Option.noConfusion hpres
        | some u =>
          have hu : u = w := Option.some.inj hpres
          rw [hu]
    have hltlen : E.index k < m.inner.length := get?_some_lt_length hslot
    have hfull : m.inner.length = E.size := by
      rcases hlen with hnil | hfull
      · rw [hnil] at hltlen
        simp at hltlen
      · exact hfull
    have halloc := allocate_eq_of_full E L m hfull
    have hpos : 0 < m.size := by
      rw [hsize]
      exact occupiedCount_pos m (E.index k) w hslot
    refine ⟨⟨{ inner := m.inner.set (E.index k) (some v), size := m.size },
        ?_, rfl, ?_⟩, ?_, ?_, ?_⟩
    · unfold EnumMap.insert
      rw [halloc]
      simp only [hslot]
      rfl
    · show ((m.inner.set (E.index k) (some v)).get? (E.index k)).bind id
          = some v
      rw [List.get?_set_eq_of_lt _ (by omega)]
      rfl
    · unfold EnumMap.remove
      rw [hslot]
    · unfold EnumMap.remove
      rw [hslot]
      simp only [Option.isSome_some, if_pos]
      omega
    · unfold EnumMap.remove
      rw [hslot]
      show ((m.inner.set (E.index k) none).get? (E.index k)).bind id = none
      rw [List.get?_set_eq_of_lt _ (by omega)]
      rfl

/-- C7 witness: inserting 7 at `Less` into a fresh `Ordering`-keyed map
succeeds, yields count 1 and makes `Less` map to 7. -/
theorem insert_remove_len_get_witness :
    ∃ m2, EnumMap.insert orderingEnum (EnumMap.new Nat) Ordering.lt 7
        = some (none, m2) ∧
      m2.size = (EnumMap.new Nat).size + 1 ∧
      EnumMap.get orderingEnum m2 Ordering.lt = some 7 :=
  (insert_remove_len_get orderingEnum orderingEnumLaws (EnumMap.new Nat)
    Ordering.lt 7 (Or.inl rfl) (by decide)).1 rfl

/-- Membership testing against a single-bit mask is a bit test at the
value's index. -/
theorem contains_testBit {α : Type} (E : EnumSig α) (s : EnumSet) (x : α)
    (hbit : E.bit x = 2 ^ E.index x) :
    EnumSet.contains E s x = s.raw.testBit (E.index x) := by
  unfold EnumSet.contains
  rw [hbit, Nat.and_two_pow]
  rcases h : s.raw.testBit (E.index x) <;> simp [h, Nat.pos_pow_of_pos]

/-- C8: for a key type whose masks are the single bits at each value's
index (as the spec's `Enum` contract requires), `inverse` contains exactly
the values the set does not contain, and — because the complement is masked
to the low `SIZE` bits — no bit at position `SIZE` or beyond is ever set in
the result. -/
theorem inverse_complement_masked {α : Type} (E : EnumSig α) (s : EnumSet)
    (hbit : ∀ x, E.bit x = 2 ^ E.index x)
    (hlt : ∀ x, E.index x < E.size)
    (hw : E.size ≤ E.repWidth) :
    (∀ x, EnumSet.contains E (EnumSet.inverse E s) x
        = !(EnumSet.contains E s x)) ∧
    (∀ j, E.size ≤ j → ((EnumSet.inverse E s).raw).testBit j = false) := by
  constructor
  · intro x
    rw [contains_testBit E _ x (hbit x), contains_testBit E s x (hbit x)]
    show ((s.raw ^^^ Wordlike.mask E.repWidth) &&& Wordlike.mask E.size).testBit
        (E.index x) = _
    unfold Wordlike.mask
    rw [Nat.testBit_and, Nat.testBit_xor, Nat.testBit_two_pow_sub_one,
      Nat.testBit_two_pow_sub_one]
    have h1 : E.index x < E.size := hlt x
    have h2 : E.index x < E.repWidth := lt_of_lt_of_le h1 hw
    simp [h1, h2]
  · intro j hj
    show ((s.raw ^^^ Wordlike.mask E.repWidth) &&& Wordlike.mask E.size).testBit
        j = false
    unfold Wordlike.mask
    rw [Nat.testBit_and, Nat.testBit_two_pow_sub_one]
    simp [Nat.not_lt.mpr hj]

/-- C8 witness: over `Ordering`, the inverse of the raw-word-5 set
(containing `Less` and `Greater`) contains exactly `Equal`, and sets no bit
at position 3 or beyond. -/
theorem inverse_complement_masked_witness :
    (∀ x : Ordering, EnumSet.contains orderingEnum
        (EnumSet.inverse orderingEnum { raw := 5 }) x
        = !(EnumSet.contains orderingEnum { raw := 5 } x)) ∧
    (∀ j, orderingEnum.size ≤ j →
      ((EnumSet.inverse orderingEnum { raw := 5 }).raw).testBit j = false) :=
  inverse_complement_masked orderingEnum { raw := 5 } (by decide) (by decide)
    (by decide)

/-- Positional lookup in a zip of two lists. -/
theorem get?_zip {α β : Type} :
    ∀ (l1 : List α) (l2 : List β) (i : Nat),
      (l1.zip l2).get? i
        = (l1.get? i).bind (fun a => (l2.get? i).map (fun b => (a, b))) := by
  intro l1
  induction l1 with
  | nil => intro l2 i; cases l2 <;> cases i <;> rfl
  | cons a t ih =>
    intro l2 i
    cases l2 with
    | nil => cases i <;> simp
    | cons b t2 =>
      cases i with
      | zero => rfl
      | succ n => exact ih t2 n

/-- A list whose element at position `i` always has `g`-value `base + i` is
pairwise `g`-distinct after zipping with anything. -/
theorem zip_pairwise_index {κ V : Type} (g : κ → Nat) :
    ∀ (l1 : List κ) (l2 : List (Option V)) (base : Nat),
      (∀ i x, l1.get? i = some x → g x = base + i) →
      (l1.zip l2).Pairwise (fun a b => g a.1 ≠ g b.1) := by
  intro l1
  induction l1 with
  | nil => intro l2 base _; simp
  | cons a t ih =>
    intro l2 base h
    cases l2 with
    | nil => simp
    | cons b t2 =>
      refine List.pairwise_cons.mpr ⟨?_, ?_⟩
      · intro cd hcd
        have hc1 : cd.1 ∈ t := (List.of_mem_zip hcd).1
        obtain ⟨n, hn⟩ := List.mem_iff_get?.mp hc1
        have h1 : g cd.1 = base + 1 + n := by
          have := h (n + 1) cd.1 hn
          omega
        have h0 : g a = base := by
          have := h 0 a rfl
          omega
        show g a ≠ g cd.1
        omega
      · apply ih t2 (base + 1)
        intro i x hx
        have := h (i + 1) x hx
        omega

/-- The serialization filter keeps first components, so it preserves
pairwise distinctness of a function of the key. -/
theorem filterMap_pairwise_fst {κ V : Type} (g : κ → Nat) :
    ∀ (l : List (κ × Option V)),
      l.Pairwise (fun a b => g a.1 ≠ g b.1) →
      (l.filterMap (fun kv => kv.2.map (fun v => (kv.1, v)))).Pairwise
        (fun a b => g a.1 ≠ g b.1) := by
  intro l
  induction l with
  | nil => intro _; simp
  | cons a t ih =>
    intro h
    obtain ⟨h1, h2⟩ := List.pairwise_cons.mp h
    rw [List.filterMap_cons]
    cases ha : a.2 with
    | none => simpa using ih h2
    | some v =>
      simp only [Option.map_some']
      refine List.pairwise_cons.mpr ⟨?_, ih h2⟩
      intro cd hcd
      obtain ⟨ab, habmem, habf⟩ := List.mem_filterMap.mp hcd
      have hfst : cd.1 = ab.1 := by
        cases hab2 : ab.2 with
        | none => rw [hab2] at habf; exact absurd habf (by simp)
        | some w =>
          rw [hab2] at habf
          simp only [Option.map_some', Option.some.injEq] at habf
          rw [← habf]
      show g a.1 ≠ g cd.1
      rw [hfst]
      exact h1 ab habmem

/-- The serialized pair list is as long as the number of occupied slots. -/
theorem filterMap_some_length {κ V : Type} :
    ∀ (l : List (κ × Option V)),
      (l.filterMap (fun kv => kv.2.map (fun v => (kv.1, v)))).length
        = ((l.map Prod.snd).filter Option.isSome).length := by
  intro l
  induction l with
  | nil => rfl
  | cons a t ih =>
    rw [List.filterMap_cons]
    cases ha : a.2 with
    | none => simp [ha, ih]
    | some v => simp [ha, ih]

/-- Writing a batch of (key, value) pairs into a slot vector, one
`set`-at-the-key's-index per pair, left to right. -/
def EnumMap.slotWrites {κ V : Type} (E : EnumSig κ) (pairs : List (κ × V))
    (init : List (Option V)) : List (Option V) :=
  pairs.foldl (fun l kv => l.set (E.index kv.1) (some kv.2)) init

/-- Slot writes preserve the storage length. -/
theorem slotWrites_length {κ V : Type} (E : EnumSig κ) :
    ∀ (pairs : List (κ × V)) (init : List (Option V)),
      (EnumMap.slotWrites E pairs init).length = init.length := by
  intro pairs
  induction pairs with
  | nil => intro init; rfl
  | cons p t ih =>
    intro init
    show (EnumMap.slotWrites E t (init.set (E.index p.1) (some p.2))).length
        = init.length
    rw [ih]
    exact List.length_set init (E.index p.1) (some p.2)

/-- A slot none of the written pairs addresses is untouched. -/
theorem slotWrites_get?_untouched {κ V : Type} (E : EnumSig κ) :
    ∀ (pairs : List (κ × V)) (init : List (Option V)) (j : Nat),
      (∀ kv ∈ pairs, E.index kv.1 ≠ j) →
      (EnumMap.slotWrites E pairs init).get? j = init.get? j := by
  intro pairs
  induction pairs with
  | nil => intro init j _; rfl
  | cons p t ih =>
    intro init j h
    show (EnumMap.slotWrites E t (init.set (E.index p.1) (some p.2))).get? j
        = init.get? j
    rw [ih _ j (fun kv hkv => h kv (List.mem_cons_of_mem p hkv))]
    exact List.get?_set_ne _ _ (h p (List.mem_cons_self p t))

/-- With pairwise-distinct key indices, a written slot holds the value of
the unique pair addressing it, and an unwritten slot keeps its content. -/
theorem slotWrites_get?_find {κ V : Type} (E : EnumSig κ) :
    ∀ (pairs : List (κ × V)) (init : List (Option V)) (j : Nat),
      j < init.length →
      pairs.Pairwise (fun p q => E.index p.1 ≠ E.index q.1) →
      (EnumMap.slotWrites E pairs init).get? j =
        match pairs.find? (fun kv => E.index kv.1 == j) with
        | some kv => some (some kv.2)
        | none => init.get? j := by
  intro pairs
  induction pairs with
  | nil => intro init j _ _; rfl
  | cons p t ih =>
    intro init j hj hpw
    obtain ⟨hhead, hpwt⟩ := List.pairwise_cons.mp hpw
    show (EnumMap.slotWrites E t (init.set (E.index p.1) (some p.2))).get? j = _
    by_cases hpj : E.index p.1 = j
    · have hfind : (p :: t).find? (fun kv => E.index kv.1 == j) = some p := by
        rw [List.find?_cons_of_pos]
        simp [hpj]
      rw [hfind]
      rw [slotWrites_get?_untouched E t _ j (fun kv hkv => by
        have := hhead kv hkv
        omega)]
      rw [← hpj]
      exact List.get?_set_eq_of_lt _ (by omega)
    · have hfind : (p :: t).find? (fun kv => E.index kv.1 == j)
          = t.find? (fun kv => E.index kv.1 == j) := by
        rw [List.find?_cons_of_neg]
        simp [hpj]
      rw [hfind]
      rw [ih _ j (by simpa using hj) hpwt]
      cases hf : t.find? (fun kv => E.index kv.1 == j) with
      | some kv => rfl
      | none => exact List.get?_set_ne _ _ hpj

/-- Allocation is a no-op once storage exists. -/
theorem allocate_eq_of_ne_nil {κ V : Type} (E : EnumSig κ) (m : EnumMap V)
    (h : m.inner ≠ []) : EnumMap.allocate E m = m := by
  unfold EnumMap.allocate
  rw [List.isEmpty_eq_false.mpr h]
  rfl

/-- Folding the decoder's inserts over pairs with fresh, pairwise-distinct,
in-range key indices writes each value into its slot and adds the number of
pairs to the count. -/
theorem map_decode_fold {κ V : Type} (E : EnumSig κ) :
    ∀ (pairs : List (κ × V)) (a : EnumMap V),
      a.inner.length = E.size →
      (∀ kv ∈ pairs, E.index kv.1 < E.size) →
      (∀ kv ∈ pairs, a.inner.get? (E.index kv.1) = some none) →
      pairs.Pairwise (fun p q => E.index p.1 ≠ E.index q.1) →
      List.foldlM (fun m kv => (EnumMap.insert E m kv.1 kv.2).map Prod.snd) a
          pairs
        = some { inner := EnumMap.slotWrites E pairs a.inner,
                 size := a.size + pairs.length } := by
  intro pairs
  induction pairs with
  | nil =>
    intro a _ _ _ _
    simp [EnumMap.slotWrites]
  | cons p t ih =>
    intro a hlen hidx hslot hpw
    have hp := hidx p (List.mem_cons_self p t)
    have hne : a.inner ≠ [] := by
      intro h0
      rw [h0] at hlen
      simp at hlen
      omega
    have halloc := allocate_eq_of_ne_nil E a hne
    have hslotp := hslot p (List.mem_cons_self p t)
    have hins : EnumMap.insert E a p.1 p.2
        = some (none, { inner := a.inner.set (E.index p.1) (some p.2),
                        size := a.size + 1 }) := by
      unfold EnumMap.insert
      rw [halloc]
      simp only [hslotp]
      rfl
    obtain ⟨hhead, hpwt⟩ := List.pairwise_cons.mp hpw
    have hres := ih
      { inner := a.inner.set (E.index p.1) (some p.2), size := a.size + 1 }
      (by simp [hlen])
      (fun kv hkv => hidx kv (List.mem_cons_of_mem p hkv))
      (fun kv hkv => by
        show (a.inner.set (E.index p.1) (some p.2)).get? (E.index kv.1)
            = some none
        rw [List.get?_set_ne _ _ (hhead kv hkv)]
        exact hslot kv (List.mem_cons_of_mem p hkv))
      hpwt
    rw [List.foldlM_cons, hins]
    show List.foldlM (fun m kv => (EnumMap.insert E m kv.1 kv.2).map Prod.snd)
        { inner := a.inner.set (E.index p.1) (some p.2), size := a.size + 1 } t
      = some { inner := EnumMap.slotWrites E (p :: t) a.inner,
               size := a.size + (p :: t).length }
    rw [hres]
    have hsw : EnumMap.slotWrites E (p :: t) a.inner
        = EnumMap.slotWrites E t (a.inner.set (E.index p.1) (some p.2)) := rfl
    rw [hsw]
    simp only [Option.some.injEq, EnumMap.mk.injEq, List.length_cons]
    exact ⟨trivial, by omega⟩

/-- Two sets with the same representation word are equal. -/
theorem EnumSet.ext_raw (a b : EnumSet) (h : a.raw = b.raw) : a = b := by
  cases a
  cases b
  cases h
  rfl

/-- A bit of the word built by folding inserts is set exactly when the bit
was set initially or some inserted value's mask sets it. -/
theorem decode_set_testBit {α : Type} (E : EnumSig α) :
    ∀ (l : List α) (init : EnumSet) (j : Nat),
      ((l.foldl (fun s x => EnumSet.insert E s x) init).raw).testBit j
        = (init.raw.testBit j || l.any (fun x => (E.bit x).testBit j)) := by
  intro l
  induction l with
  | nil => intro init j; simp
  | cons a t ih =>
    intro init j
    rw [List.foldl_cons, ih]
    simp [EnumSet.insert, Nat.testBit_or, List.any_cons, Bool.or_assoc]

/-- Decoding the serialized form of a set whose word has no bits at or above
`SIZE` rebuilds exactly the same word, for a key type whose masks are the
single bits at each value's index and whose enumeration covers every value. -/
theorem set_round_trip_aux {α : Type} (E : EnumSig α) (univ : List α)
    (s : EnumSet)
    (hbit : ∀ x, E.bit x = 2 ^ E.index x)
    (hlt : ∀ x, E.index x < E.size)
    (hsurj : IndexSurj E)
    (hmem : ∀ x, x ∈ univ)
    (hraw : s.raw < 2 ^ E.size) :
    EnumSet.decode E (EnumSet.encode E univ s) = s := by
  apply EnumSet.ext_raw
  apply Nat.eq_of_testBit_eq
  intro j
  show ((EnumSet.encode E univ s).foldl (fun s x => EnumSet.insert E s x)
      EnumSet.new).raw.testBit j = s.raw.testBit j
  rw [decode_set_testBit]
  have hnew : (EnumSet.new).raw.testBit j = false := by
    simp [EnumSet.new]
  rw [hnew, Bool.false_or]
  by_cases hj : j < E.size
  · cases hb : s.raw.testBit j with
    | false =>
      apply List.any_eq_false.mpr
      intro x hx
      have hxy := List.mem_filter.mp hx
      rw [hbit x, Nat.testBit_two_pow]
      simp only [decide_eq_true_eq]
      intro hxj
      have hcon : EnumSet.contains E s x = true := hxy.2
      rw [contains_testBit E s x (hbit x), hxj, hb] at hcon
      exact Bool.noConfusion hcon
    | true =>
      obtain ⟨x0, hx0⟩ := hsurj j hj
      apply List.any_eq_true.mpr
      refine ⟨x0, ?_, ?_⟩
      · apply List.mem_filter.mpr
        refine ⟨hmem x0, ?_⟩
        rw [contains_testBit E s x0 (hbit x0), hx0, hb]
      · rw [hbit x0, hx0, Nat.testBit_two_pow]
        simp
  · have hb : s.raw.testBit j = false :=
      Nat.testBit_lt_two_pow
        (lt_of_lt_of_le hraw (Nat.pow_le_pow_right (by omega) (by omega)))
    rw [hb]
    apply List.any_eq_false.mpr
    intro x hx
    rw [hbit x, Nat.testBit_two_pow]
    simp only [decide_eq_true_eq]
    intro hxj
    have := hlt x
    omega

/-- Decoding the serialized form of a well-formed, non-empty map rebuilds
exactly the same map: storage of full `SIZE`, maintained count equal to the
occupied-slot count, and at least one occupied slot, with `univ` the
ascending enumeration of the key type. -/
theorem map_round_trip_aux {κ V : Type} (E : EnumSig κ) (univ : List κ)
    (m : EnumMap V)
    (hklt : ∀ k, E.index k < E.size)
    (hulen : univ.length = E.size)
    (huidx : ∀ i x, univ.get? i = some x → E.index x = i)
    (hmlen : m.inner.length = E.size)
    (hmsize : m.size = EnumMap.occupiedCount m)
    (hpos : 0 < m.size) :
    EnumMap.decode E (EnumMap.encode univ m) = some m := by
  have hprop1 : ∀ kv ∈ EnumMap.encode univ m,
      m.inner.get? (E.index kv.1) = some (some kv.2) := by
    intro kv hkv
    obtain ⟨ab, habmem, habf⟩ := List.mem_filterMap.mp hkv
    obtain ⟨n, hn⟩ := List.mem_iff_get?.mp habmem
    rw [get?_zip] at hn
    cases hu : univ.get? n with
    | none => rw [hu] at hn; exact absurd hn (by simp)
    | some k =>
      cases hv : m.inner.get? n with
      | none => rw [hu, hv] at hn; exact absurd hn (by simp)
      | some slot =>
        rw [hu, hv] at hn
        simp at hn
        have hab : ab = (k, slot) := hn.symm
        rw [hab] at habf
        cases slot with
        | none => exact absurd habf (by simp)
        | some v =>
          simp only [Option.map_some', Option.some.injEq] at habf
          rw [← habf]
          have hidxk : E.index k = n := huidx n k hu
          show m.inner.get? (E.index k) = some (some v)
          rw [hidxk]
          exact hv
  have hzip : (univ.zip m.inner).Pairwise
      (fun a b => E.index a.1 ≠ E.index b.1) :=
    zip_pairwise_index E.index univ m.inner 0
      (fun i x hx => by
        have := huidx i x hx
        omega)
  have hprop2 : (EnumMap.encode univ m).Pairwise
      (fun p q => E.index p.1 ≠ E.index q.1) :=
    filterMap_pairwise_fst E.index _ hzip
  have hprop3 : ∀ j v, m.inner.get? j = some (some v) →
      ∃ k, univ.get? j = some k ∧ (k, v) ∈ EnumMap.encode univ m := by
    intro j v hjv
    have hjlen : j < m.inner.length := get?_some_lt_length hjv
    have hjuniv : j < univ.length := by omega
    obtain ⟨k, hk⟩ : ∃ k, univ.get? j = some k :=
      ⟨univ.get ⟨j, hjuniv⟩, List.get?_eq_get hjuniv⟩
    refine ⟨k, hk, ?_⟩
    apply List.mem_filterMap.mpr
    refine ⟨(k, some v), ?_, by simp⟩
    apply List.mem_iff_get?.mpr
    refine ⟨j, ?_⟩
    rw [get?_zip, hk, hjv]
    rfl
  have hlenpairs : (EnumMap.encode univ m).length = m.size := by
    rw [hmsize]
    show (List.filterMap _ (univ.zip m.inner)).length = EnumMap.occupiedCount m
    rw [filterMap_some_length, List.map_snd_zip univ m.inner (by omega)]
    rfl
  have hidxall : ∀ kv ∈ EnumMap.encode univ m, E.index kv.1 < E.size :=
    fun kv _ => hklt kv.1
  cases hps : EnumMap.encode univ m with
  | nil =>
    exfalso
    rw [hps] at hlenpairs
    simp at hlenpairs
    omega
  | cons p t =>
    rw [hps] at hprop1 hprop2 hprop3 hlenpairs hidxall
    have hp1 : E.index p.1 < E.size := hidxall p (List.mem_cons_self p t)
    obtain ⟨hhead, hpwt⟩ := List.pairwise_cons.mp hprop2
    have hrep : ∀ j, j < E.size →
        (List.replicate E.size (none : Option V)).get? j = some none := by
      intro j hj
      rw [List.get?_eq_get (by simpa using hj)]
      simp
    have hinsnew : EnumMap.insert E (EnumMap.new V) p.1 p.2
        = some (none,
            { inner := (List.replicate E.size none).set (E.index p.1)
                (some p.2),
              size := 1 }) := by
      unfold EnumMap.insert
      have : EnumMap.allocate E (EnumMap.new V)
          = { inner := List.replicate E.size none, size := 0 } := rfl
      rw [this]
      simp only [hrep (E.index p.1) hp1]
      rfl
    unfold EnumMap.decode
    rw [List.foldlM_cons, hinsnew]
    show List.foldlM (fun m kv => (EnumMap.insert E m kv.1 kv.2).map Prod.snd)
        { inner := (List.replicate E.size none).set (E.index p.1) (some p.2),
          size := 1 } t
      = some m
    have hfold := map_decode_fold E t
      { inner := (List.replicate E.size none).set (E.index p.1) (some p.2),
        size := 1 }
      (by simp)
      (fun kv hkv => hidxall kv (List.mem_cons_of_mem p hkv))
      (fun kv hkv => by
        show ((List.replicate E.size none).set (E.index p.1)
            (some p.2)).get? (E.index kv.1) = some none
        rw [List.get?_set_ne _ _ (hhead kv hkv)]
        exact hrep _ (hidxall kv (List.mem_cons_of_mem p hkv)))
      hpwt
    rw [hfold]
    have hswcons : EnumMap.slotWrites E t
        ((List.replicate E.size none).set (E.index p.1) (some p.2))
        = EnumMap.slotWrites E (p :: t) (List.replicate E.size none) := rfl
    rw [hswcons]
    have hinner : EnumMap.slotWrites E (p :: t) (List.replicate E.size none)
        = m.inner := by
      apply List.ext_get?
      intro j
      by_cases hj : j < E.size
      · rw [slotWrites_get?_find E (p :: t) _ j (by simpa using hj) hprop2]
        cases hfind : (p :: t).find? (fun kv => E.index kv.1 == j) with
        | some kv =>
          have hkvj : E.index kv.1 = j := by
            have := List.find?_some hfind
            simpa using this
          have hkvmem := List.mem_of_find?_eq_some hfind
          have := hprop1 kv hkvmem
          rw [hkvj] at this
          exact this.symm
        | none =>
          have hnone : ∀ kv ∈ (p :: t), ¬ (E.index kv.1 = j) := by
            intro kv hkv
            have := List.find?_eq_none.mp hfind kv hkv
            simpa using this
          obtain ⟨slot, hslot⟩ : ∃ slot, m.inner.get? j = some slot :=
            ⟨m.inner.get ⟨j, by omega⟩, List.get?_eq_get (by omega)⟩
          cases slot with
          | none => rw [hrep j hj, hslot]
          | some v =>
            exfalso
            obtain ⟨k, hk, hkmem⟩ := hprop3 j v hslot
            exact hnone (k, v) hkmem (huidx j k hk)
      · have h1 : (EnumMap.slotWrites E (p :: t)
            (List.replicate E.size none)).get? j = none := by
          apply List.get?_eq_none.mpr
          rw [slotWrites_length]
          simpa using hj
        have h2 : m.inner.get? j = none := by
          apply List.get?_eq_none.mpr
          omega
        rw [h1, h2]
    rw [hinner]
    have hsz : 1 + t.length = m.size := by
      simp at hlenpairs
      omega
    rw [hsz]

/-- C9 counterexample: the round-trip law fails, as stated, for the map
whose storage was allocated by an insert and emptied again by a remove
(`Ordering` keys, storage `[None, None, None]`, count 0): it encodes to the
empty mapping, which decodes to the never-allocated fresh map, and the two
are distinguishable (their derived equality compares backing storage). -/
theorem map_round_trip_counterexample :
    EnumMap.insert orderingEnum (EnumMap.new Nat) Ordering.lt 7
        = some (none, { inner := [some 7, none, none], size := 1 }) ∧
    EnumMap.remove orderingEnum
        ({ inner := [some 7, none, none], size := 1 } : EnumMap Nat)
        Ordering.lt
        = (some 7, { inner := [none, none, none], size := 0 }) ∧
    EnumMap.encode [Ordering.lt, Ordering.eq, Ordering.gt]
        ({ inner := [none, none, none], size := 0 } : EnumMap Nat) = [] ∧
    EnumMap.decode orderingEnum ([] : List (Ordering × Nat))
        = some (EnumMap.new Nat) ∧
    EnumMap.new Nat ≠ { inner := [none, none, none], size := 0 } ∧
    EnumMap.decode orderingEnum (EnumMap.encode
        [Ordering.lt, Ordering.eq, Ordering.gt]
        ({ inner := [none, none, none], size := 0 } : EnumMap Nat))
      ≠ some ({ inner := [none, none, none], size := 0 } : EnumMap Nat) := by
  refine ⟨by decide, by decide, by decide, by decide, by decide, by decide⟩

/-- C9 amended: decode-after-encode is the identity for every `EnumSet`
whose word has no bits at or above `SIZE`, and for every `EnumMap` that is
either still unallocated or has full-size storage, a maintained count equal
to its occupied-slot count, and at least one entry (an allocated map whose
last entry was removed decodes to the unallocated empty map instead, as the
counterexample shows). Keys and elements are assumed to round-trip, their
masks to be the single bits at their indices, and `univ` to be the
ascending enumeration of the respective key type. -/
theorem round_trip_amended {α κ V : Type} (E1 : EnumSig α) (E2 : EnumSig κ)
    (univ1 : List α) (univ2 : List κ) (s : EnumSet) (m : EnumMap V)
    (h1bit : ∀ x, E1.bit x = 2 ^ E1.index x)
    (h1lt : ∀ x, E1.index x < E1.size)
    (h1surj : IndexSurj E1)
    (h1mem : ∀ x, x ∈ univ1)
    (h1raw : s.raw < 2 ^ E1.size)
    (h2lt : ∀ k, E2.index k < E2.size)
    (h2ulen : univ2.length = E2.size)
    (h2uidx : ∀ i x, univ2.get? i = some x → E2.index x = i)
    (h2wf : (m.inner = [] ∧ m.size = 0) ∨
      (m.inner.length = E2.size ∧ m.size = EnumMap.occupiedCount m ∧
        0 < m.size)) :
    EnumSet.decode E1 (EnumSet.encode E1 univ1 s) = s ∧
    EnumMap.decode E2 (EnumMap.encode univ2 m) = some m := by
  constructor
  · exact set_round_trip_aux E1 univ1 s h1bit h1lt h1surj h1mem h1raw
  · rcases h2wf with ⟨hnil, hz⟩ | ⟨hl, hs, hp⟩
    · have hm : m = EnumMap.new V := by
        cases m with
        | mk inner size =>
          simp only at hnil hz
          rw [EnumMap.new, hnil, hz]
      rw [hm]
      show EnumMap.decode E2 (EnumMap.encode univ2 (EnumMap.new V))
          = some (EnumMap.new V)
      simp [EnumMap.encode, EnumMap.decode, EnumMap.new]
    · exact map_round_trip_aux E2 univ2 m h2lt h2ulen h2uidx hl hs hp

/-- C9 amended, witness: over `Ordering`, the raw-word-3 set and the map
`{Less ↦ 7}` both decode back to themselves after encoding. -/
theorem round_trip_amended_witness :
    EnumSet.decode orderingEnum (EnumSet.encode orderingEnum
      [Ordering.lt, Ordering.eq, Ordering.gt] { raw := 3 }) = { raw := 3 } ∧
    EnumMap.decode orderingEnum (EnumMap.encode
      [Ordering.lt, Ordering.eq, Ordering.gt]
      ({ inner := [some 7, none, none], size := 1 } : EnumMap Nat))
      = some { inner := [some 7, none, none], size := 1 } :=
  round_trip_amended orderingEnum orderingEnum
    [Ordering.lt, Ordering.eq, Ordering.gt]
    [Ordering.lt, Ordering.eq, Ordering.gt]
    { raw := 3 } { inner := [some 7, none, none], size := 1 }
    (by decide) (by decide) orderingEnumSurj
    (by intro x; cases x <;> simp) (by decide)
    (by decide) (by decide)
    (by
      intro i x h
      rcases i with _ | _ | _ | i
      · cases h; rfl
      · cases h; rfl
      · cases h; rfl
      · exact Option.noConfusion h)
    (Or.inr ⟨by decide, by decide, by decide⟩)
